import Mathlib

/-!
# Memory-mapped register access layer (`eda/register.go`)

A shallow embedding of the register views of package `eda`: `reg32`, `hrCfg`
and `daqFIFO`, all of which alias the byte slice returned by `rwer.Bytes()`.

Modelling conventions.

* A 64-bit little-endian target is assumed (`uintptr` and `int` are 64 bits
  wide, `uint32` is stored least significant byte first).
* An `unsafe.Pointer` is an absolute address, a natural number below `2^64`.
  The backing slice of the `rwer` occupies the addresses
  `[addr, addr + len(raw))`.
* Every operation that touches memory returns its outcome together with the
  region after the operation.
* Go run-time panics (index out of range, slice bounds out of range, call of a
  nil func) are outcomes of their own.  A load or store through a raw pointer
  at an address that no byte of the region backs is not checked by Go and is
  undefined there; the embedding reports it as `Fault.outsideRegion` and leaves
  the region as it was.
* `int64` offsets are integers; lengths and byte counts are naturals.
-/

namespace eda

/-- One byte of memory. -/
abbrev Byte := Fin 256

/-- Ways an operation can fail to return. -/
inductive Fault where
  /-- Go panic: index out of range. -/
  | indexOutOfRange
  /-- Go panic: slice bounds out of range. -/
  | sliceBoundsOutOfRange
  /-- Go panic: call of a nil func value. -/
  | nilFunc
  /-- Raw access at an address outside the region (undefined behaviour in Go). -/
  | outsideRegion
  deriving DecidableEq, Repr

/-- The `rwer` of the source, reduced to what the views use: the byte slice
`Bytes()` returns, which sits at address `addr` and holds the bytes `raw`. -/
structure rwer where
  addr : Nat
  raw : List Byte
  deriving DecidableEq, Repr

/-- `rw.Bytes()`: the contents of the backing slice. -/
def rwer.Bytes (rw : rwer) : List Byte := rw.raw

/-- Outcome of an operation together with the region after it. -/
abbrev Res (α : Type) := Except Fault α × rwer

/-- Width of `uintptr` in bits. -/
def ptrBits : Nat := 64

/-- Conversion `uintptr(n)` of a Go `int`. -/
def toUintptr (n : Int) : Nat := (n % (2 ^ ptrBits : Int)).toNat

/-- `&raw[offset]` for `raw := rw.Bytes()`: the indexing is bounds-checked
against the length of the slice. -/
def addrOfIndex (rw : rwer) (offset : Int) : Except Fault Nat :=
  if 0 ≤ offset ∧ offset < (rw.Bytes.length : Int) then
    .ok (rw.addr + offset.toNat)
  else
    .error .indexOutOfRange

/-- Load of one byte through a raw pointer. -/
def loadByte (rw : rwer) (a : Nat) : Except Fault Byte :=
  if rw.addr ≤ a then
    match rw.raw[a - rw.addr]? with
    | some b => .ok b
    | none => .error .outsideRegion
  else
    .error .outsideRegion

/-- Store of one byte through a raw pointer. -/
def storeByte (rw : rwer) (a : Nat) (b : Byte) : Except Fault rwer :=
  if rw.addr ≤ a ∧ a - rw.addr < rw.raw.length then
    .ok { rw with raw := rw.raw.set (a - rw.addr) b }
  else
    .error .outsideRegion

/-- Store of consecutive bytes starting at address `a`. -/
def storeBytes (rw : rwer) (a : Nat) : List Byte → Except Fault rwer
  | [] => .ok rw
  | b :: bs =>
    match storeByte rw a b with
    | .ok rw1 => storeBytes rw1 (a + 1) bs
    | .error e => .error e

/-- Byte `k` of the little-endian representation of the `uint32` value `v`. -/
def leByte (v : Nat) (k : Nat) : Byte :=
  ⟨v / 2 ^ (8 * k) % 256, Nat.mod_lt _ (by decide)⟩

/-- The four bytes of a `uint32` in memory order. -/
def encode32 (v : Nat) : List Byte := [leByte v 0, leByte v 1, leByte v 2, leByte v 3]

/-- The `uint32` whose bytes in memory order are `b0 b1 b2 b3`. -/
def decode32 (b0 b1 b2 b3 : Byte) : Nat :=
  b0.val + b1.val * 2 ^ 8 + b2.val * 2 ^ 16 + b3.val * 2 ^ 24

/-- Load `*p` for `p : *uint32`. -/
def load32 (rw : rwer) (a : Nat) : Except Fault Nat :=
  match loadByte rw a, loadByte rw (a + 1), loadByte rw (a + 2), loadByte rw (a + 3) with
  | .ok b0, .ok b1, .ok b2, .ok b3 => .ok (decode32 b0 b1 b2 b3)
  | _, _, _, _ => .error .outsideRegion

/-- Store `*p = v` for `p : *uint32`. -/
def store32 (rw : rwer) (a : Nat) (v : Nat) : Except Fault rwer :=
  storeBytes rw a (encode32 v)

/-- `unsafeAdd(ptr, n)`: `unsafe.Pointer(uintptr(ptr) + uintptr(n))`. -/
def unsafeAdd (ptr : Nat) (n : Int) : Nat :=
  (ptr + toUintptr n) % 2 ^ ptrBits

/-- A Go byte slice made from a raw pointer: where it starts and its length. -/
structure RawSlice where
  ptr : Nat
  len : Nat
  deriving DecidableEq, Repr

/-- `unsafeSlice(ptr, n)`: `(*[4 + nHR*nBytesCfgHR]byte)(unsafe.Pointer(ptr))[:n]`.
The slice expression on the array is checked against the array length.  The
package constants `nHR` and `nBytesCfgHR` are parameters. -/
def unsafeSlice (nHR nBytesCfgHR : Nat) (ptr : Nat) (n : Nat) : Except Fault RawSlice :=
  if n ≤ 4 + nHR * nBytesCfgHR then
    .ok ⟨ptr, n⟩
  else
    .error .sliceBoundsOutOfRange

/-- The builtin `copy(dst, src)`: moves `min(len(dst), len(src))` bytes and
returns that count. -/
def copy (dst : RawSlice) (src : List Byte) (rw : rwer) : Res Nat :=
  let n := min dst.len src.length
  match storeBytes rw dst.ptr (src.take n) with
  | .ok rw1 => (.ok n, rw1)
  | .error e => (.error e, rw)

/-- The struct `reg32`: a pointer and the two bound method values. -/
structure reg32 where
  ptr : Nat
  r : rwer → Res Nat
  w : Nat → rwer → Res Unit

/-- Method `(*reg32).rImpl`: `return *x.ptr`. -/
def reg32.rImpl (x : reg32) (rw : rwer) : Res Nat :=
  (load32 rw x.ptr, rw)

/-- Method `(*reg32).wImpl`: `*x.ptr = v`. -/
def reg32.wImpl (x : reg32) (v : Nat) (rw : rwer) : Res Unit :=
  match store32 rw x.ptr v with
  | .ok rw1 => (.ok (), rw1)
  | .error e => (.error e, rw)

/-- `newReg32(rw, offset)`.  The method values `reg.rImpl` and `reg.wImpl` bind the
local `reg`, whose func fields are still nil at that point; both methods read
only `x.ptr`. -/
def newReg32 (rw : rwer) (offset : Int) : Except Fault reg32 :=
  match addrOfIndex rw offset with
  | .error e => .error e
  | .ok ptr =>
    let reg : reg32 :=
      { ptr := ptr, r := fun rw => (.error .nilFunc, rw), w := fun _ rw => (.error .nilFunc, rw) }
    .ok { reg with r := reg.rImpl, w := reg.wImpl }

/-- The struct `hrCfg`. -/
structure hrCfg where
  ptr : Nat
  deriving DecidableEq, Repr

/-- `newHRCfg(rw, offset)`. -/
def newHRCfg (rw : rwer) (offset : Int) : Except Fault hrCfg :=
  match addrOfIndex rw offset with
  | .error e => .error e
  | .ok ptr => .ok ⟨ptr⟩

/-- Method `(*hrCfg).r`. -/
def hrCfg.r (hr : hrCfg) (i : Int) (rw : rwer) : Res Byte :=
  let ptr := unsafeAdd hr.ptr i
  (loadByte rw ptr, rw)

/-- A Go `error` value; `none` is `nil`. -/
abbrev GoError := Option String

/-- Method `(*hrCfg).w`. -/
def hrCfg.w (nHR nBytesCfgHR : Nat) (hr : hrCfg) (p : List Byte) (rw : rwer) :
    Res (Nat × GoError) :=
  match unsafeSlice nHR nBytesCfgHR hr.ptr p.length with
  | .error e => (.error e, rw)
  | .ok dst =>
    match copy dst p rw with
    | (.ok n, rw1) => (.ok (n, none), rw1)
    | (.error e, rw1) => (.error e, rw1)

/-- The register indices of package `regs` that `newDAQFIFO` uses. -/
structure RegMap where
  ALTERA_AVALON_FIFO_LEVEL_REG : Int
  ALTERA_AVALON_FIFO_STATUS_REG : Int
  ALTERA_AVALON_FIFO_EVENT_REG : Int
  ALTERA_AVALON_FIFO_IENABLE_REG : Int
  ALTERA_AVALON_FIFO_ALMOSTFULL_REG : Int
  ALTERA_AVALON_FIFO_ALMOSTEMPTY_REG : Int

/-- Modelled from the spec: the constants of `eda/internal/regs`, which is not
part of the sources at hand.  The spec fixes the order LEVEL, STATUS, EVENT,
IENABLE, ALMOSTFULL, ALMOSTEMPTY at `base + i*4` for `i = 0..5`. -/
def regs : RegMap :=
  { ALTERA_AVALON_FIFO_LEVEL_REG := 0
    ALTERA_AVALON_FIFO_STATUS_REG := 1
    ALTERA_AVALON_FIFO_EVENT_REG := 2
    ALTERA_AVALON_FIFO_IENABLE_REG := 3
    ALTERA_AVALON_FIFO_ALMOSTFULL_REG := 4
    ALTERA_AVALON_FIFO_ALMOSTEMPTY_REG := 5 }

/-- The struct `daqFIFO`: `pins [6]reg32`. -/
structure daqFIFO where
  pins : Fin 6 → reg32

/-- `unsafe.Sizeof(uint32(0))`. -/
def sz : Int := 4

/-- `newDAQFIFO(rw, offset)`; the six `newReg32` calls run in order. -/
def newDAQFIFO (rg : RegMap) (rw : rwer) (offset : Int) : Except Fault daqFIFO :=
  match newReg32 rw (offset + sz * rg.ALTERA_AVALON_FIFO_LEVEL_REG) with
  | .error e => .error e
  | .ok p0 =>
  match newReg32 rw (offset + sz * rg.ALTERA_AVALON_FIFO_STATUS_REG) with
  | .error e => .error e
  | .ok p1 =>
  match newReg32 rw (offset + sz * rg.ALTERA_AVALON_FIFO_EVENT_REG) with
  | .error e => .error e
  | .ok p2 =>
  match newReg32 rw (offset + sz * rg.ALTERA_AVALON_FIFO_IENABLE_REG) with
  | .error e => .error e
  | .ok p3 =>
  match newReg32 rw (offset + sz * rg.ALTERA_AVALON_FIFO_ALMOSTFULL_REG) with
  | .error e => .error e
  | .ok p4 =>
  match newReg32 rw (offset + sz * rg.ALTERA_AVALON_FIFO_ALMOSTEMPTY_REG) with
  | .error e => .error e
  | .ok p5 => .ok ⟨![p0, p1, p2, p3, p4, p5]⟩

/-- The array access `daq.pins[i]`, bounds-checked against the array length 6. -/
def daqFIFO.pin (daq : daqFIFO) (i : Int) : Except Fault reg32 :=
  if h : 0 ≤ i ∧ i < 6 then
    .ok (daq.pins ⟨i.toNat, by omega⟩)
  else
    .error .indexOutOfRange

/-- Method `(*daqFIFO).r`. -/
def daqFIFO.r (daq : daqFIFO) (i : Int) (rw : rwer) : Res Nat :=
  match daq.pin i with
  | .error e => (.error e, rw)
  | .ok pin => pin.r rw

/-- Method `(*daqFIFO).w`. -/
def daqFIFO.w (daq : daqFIFO) (i : Int) (v : Nat) (rw : rwer) : Res Unit :=
  match daq.pin i with
  | .error e => (.error e, rw)
  | .ok pin => pin.w v rw

/-- A region of `n` zero bytes at address `a`. -/
def zeroRegion (a n : Nat) : rwer := ⟨a, List.replicate n 0⟩

/-! ## Memory primitives -/

theorem addrOfIndex_inside (rw : rwer) (o : Int) (h0 : 0 ≤ o) (h1 : o < rw.raw.length) :
    addrOfIndex rw o = .ok (rw.addr + o.toNat) := by
  simp [addrOfIndex, rwer.Bytes, h0, h1]

theorem addrOfIndex_outside (rw : rwer) (o : Int) (h : ¬ (0 ≤ o ∧ o < rw.raw.length)) :
    addrOfIndex rw o = .error .indexOutOfRange := by
  simp only [addrOfIndex, rwer.Bytes]
  rw [if_neg h]

theorem loadByte_inside (rw : rwer) (k : Nat) (b : Byte) (h : rw.raw[k]? = some b) :
    loadByte rw (rw.addr + k) = .ok b := by
  simp [loadByte, h]

theorem storeBytes_inside (bs : List Byte) :
    ∀ (rw : rwer) (j : Nat), j + bs.length ≤ rw.raw.length →
      ∃ rw1, storeBytes rw (rw.addr + j) bs = .ok rw1 ∧ rw1.addr = rw.addr ∧
        rw1.raw.length = rw.raw.length ∧
        ∀ k : Nat, rw1.raw[k]? =
          if j ≤ k ∧ k < j + bs.length then bs[k - j]? else rw.raw[k]? := by
  induction bs with
  | nil =>
    intro rw j _
    refine ⟨rw, rfl, rfl, rfl, ?_⟩
    intro k
    have : ¬ (j ≤ k ∧ k < j + ([] : List Byte).length) := by simp
    rw [if_neg this]
  | cons b bs ih =>
    intro rw j hj
    simp only [List.length_cons] at hj
    have hlt : j < rw.raw.length := by omega
    have hst : storeByte rw (rw.addr + j) b = .ok { rw with raw := rw.raw.set j b } := by
      simp [storeByte, hlt]
    obtain ⟨rw1, h1, h2, h3, h4⟩ := ih { rw with raw := rw.raw.set j b } (j + 1)
      (by simp only [List.length_set]; omega)
    refine ⟨rw1, ?_, ?_, ?_, ?_⟩
    · simp only [storeBytes, hst]
      simpa [Nat.add_assoc] using h1
    · simpa using h2
    · simpa using h3
    · intro k
      rw [h4 k]
      simp only [List.length_cons]
      by_cases hk : k = j
      · subst hk
        simp [hlt]
      · by_cases hin : j + 1 ≤ k ∧ k < j + 1 + bs.length
        · rw [if_pos hin, if_pos (by omega)]
          obtain ⟨d, hd⟩ : ∃ d, k - j = d + 1 := ⟨k - j - 1, by omega⟩
          have : k - (j + 1) = d := by omega
          rw [hd, this]
          simp
        · rw [if_neg hin, if_neg (by omega)]
          simp [List.getElem?_set, Ne.symm hk]

theorem storeBytes_ok_inside (bs : List Byte) :
    ∀ (rw rw1 : rwer) (a : Nat), storeBytes rw a bs = .ok rw1 → bs ≠ [] →
      rw.addr ≤ a ∧ a - rw.addr + bs.length ≤ rw.raw.length := by
  induction bs with
  | nil => intro _ _ _ _ h; exact absurd rfl h
  | cons b bs ih =>
    intro rw rw1 a h _
    simp only [storeBytes, storeByte] at h
    by_cases hc : rw.addr ≤ a ∧ a - rw.addr < rw.raw.length
    · rw [if_pos hc] at h
      simp only at h
      by_cases hbs : bs = []
      · subst hbs
        simp only [List.length_cons, List.length_nil]
        omega
      · have := ih _ _ _ h hbs
        simp only [List.length_set] at this
        simp only [List.length_cons]
        omega
    · rw [if_neg hc] at h
      simp at h

theorem unsafeAdd_inside (p : Nat) (i : Int) (h0 : 0 ≤ (p : Int) + i)
    (h1 : (p : Int) + i < 2 ^ 64) : unsafeAdd p i = ((p : Int) + i).toNat := by
  simp only [unsafeAdd, toUintptr, ptrBits]
  norm_num at h1 ⊢
  omega

theorem decode32_leByte (v : Nat) (hv : v < 2 ^ 32) :
    decode32 (leByte v 0) (leByte v 1) (leByte v 2) (leByte v 3) = v := by
  simp only [decode32, leByte]
  norm_num at hv ⊢
  omega

theorem load32_inside (rw : rwer) (j : Nat) (b0 b1 b2 b3 : Byte)
    (h0 : rw.raw[j]? = some b0) (h1 : rw.raw[j + 1]? = some b1)
    (h2 : rw.raw[j + 2]? = some b2) (h3 : rw.raw[j + 3]? = some b3) :
    load32 rw (rw.addr + j) = .ok (decode32 b0 b1 b2 b3) := by
  simp only [load32, Nat.add_assoc, loadByte_inside rw j b0 h0,
    loadByte_inside rw (j + 1) b1 h1, loadByte_inside rw (j + 2) b2 h2,
    loadByte_inside rw (j + 3) b3 h3]

theorem newReg32_inside (rw : rwer) (o : Int) (h0 : 0 ≤ o) (h1 : o < rw.raw.length) :
    ∃ reg, newReg32 rw o = .ok reg ∧ reg.ptr = rw.addr + o.toNat ∧
      (∀ m, reg.r m = (load32 m (rw.addr + o.toNat), m)) ∧
      (∀ v m, reg.w v m =
        match store32 m (rw.addr + o.toNat) v with
        | .ok m1 => (.ok (), m1)
        | .error e => (.error e, m)) := by
  simp only [newReg32, addrOfIndex_inside rw o h0 h1]
  exact ⟨_, rfl, rfl, fun _ => rfl, fun _ _ => rfl⟩

theorem store32_inside (rw : rwer) (j v : Nat) (hj : j + 4 ≤ rw.raw.length) :
    ∃ rw1, store32 rw (rw.addr + j) v = .ok rw1 ∧ rw1.addr = rw.addr ∧
      rw1.raw.length = rw.raw.length ∧
      ∀ k : Nat, rw1.raw[k]? =
        if j ≤ k ∧ k < j + 4 then (encode32 v)[k - j]? else rw.raw[k]? := by
  have h := storeBytes_inside (encode32 v) rw j (by simpa [encode32] using hj)
  simpa [store32, encode32] using h

theorem getElem?_of_lt (l : List Byte) (k : Nat) (h : k < l.length) :
    ∃ b, l[k]? = some b := ⟨l[k], List.getElem?_eq_getElem h⟩

/-- C1. A `reg32` built by `newReg32` at an offset `o` with `o + 4` within the
region returns from `r()` the 32-bit value `v` that `w(v)` stored. -/
theorem reg32_write_then_read (rw : rwer) (o : Int) (v : Nat)
    (ho : 0 ≤ o) (hlen : o + 4 ≤ rw.raw.length) (hv : v < 2 ^ 32) :
    ∃ reg rw1, newReg32 rw o = .ok reg ∧ reg.w v rw = (.ok (), rw1) ∧
      reg.r rw1 = (.ok v, rw1) := by
  obtain ⟨reg, hreg, _, hr, hw⟩ := newReg32_inside rw o ho (by omega)
  obtain ⟨rw1, hs, ha, _, hget⟩ := store32_inside rw o.toNat v (by omega)
  refine ⟨reg, rw1, hreg, ?_, ?_⟩
  · rw [hw, hs]
  · rw [hr, ← ha]
    have e0 : rw1.raw[o.toNat]? = some (leByte v 0) := by
      rw [hget]; simp [encode32]
    have e1 : rw1.raw[o.toNat + 1]? = some (leByte v 1) := by
      rw [hget]; simp [encode32]
    have e2 : rw1.raw[o.toNat + 2]? = some (leByte v 2) := by
      rw [hget]; simp [encode32]
    have e3 : rw1.raw[o.toNat + 3]? = some (leByte v 3) := by
      rw [hget]; simp [encode32]
    rw [load32_inside rw1 o.toNat _ _ _ _ e0 e1 e2 e3, decode32_leByte v hv]

/-- C1 (instance). Round trip at offset 4 of an 8-byte region. -/
theorem reg32_write_then_read_witness :
    ∃ reg rw1, newReg32 (zeroRegion 4096 8) 4 = .ok reg ∧
      reg.w 0xDEADBEEF (zeroRegion 4096 8) = (.ok (), rw1) ∧
      reg.r rw1 = (.ok 0xDEADBEEF, rw1) :=
  reg32_write_then_read (zeroRegion 4096 8) 4 0xDEADBEEF (by decide) (by decide) (by decide)

/-- C3 (as amended). `newReg32` checks the offset of the first byte only: it
returns a view exactly when `0 ≤ o < len`, and panics with index out of range
otherwise.  So it succeeds whenever `o + 4 ≤ len`, and also for the offsets
`len - 3 .. len - 1`. -/
theorem newReg32_checks_first_byte_only (rw : rwer) (o : Int) :
    ((∃ reg, newReg32 rw o = .ok reg ∧ reg.ptr = rw.addr + o.toNat) ↔
      (0 ≤ o ∧ o < rw.raw.length)) ∧
    (¬ (0 ≤ o ∧ o < rw.raw.length) → newReg32 rw o = .error .indexOutOfRange) := by
  constructor
  · constructor
    · rintro ⟨reg, h, _⟩
      by_contra hc
      simp [newReg32, addrOfIndex_outside rw o hc] at h
    · rintro ⟨h0, h1⟩
      obtain ⟨reg, hreg, hp, _⟩ := newReg32_inside rw o h0 h1
      exact ⟨reg, hreg, hp⟩
  · intro hc
    simp [newReg32, addrOfIndex_outside rw o hc]

/-- C3 (counterexample). In a 4-byte region the offset 3 has `3 + 4 > 4`, yet
`newReg32` returns a view instead of failing. -/
theorem newReg32_straddling_view_is_built :
    ((3 : Int) + 4 > ((zeroRegion 4096 4).raw.length : Int)) ∧
      (newReg32 (zeroRegion 4096 4) 3).toBool = true := by
  constructor
  · decide
  · rfl

/-- C4. `w(v)` on an in-bounds `reg32` at offset `o` succeeds, keeps the length
of the region and keeps every byte at an index outside `[o, o+4)`. -/
theorem reg32_write_frame (rw : rwer) (o : Int) (v : Nat)
    (ho : 0 ≤ o) (hlen : o + 4 ≤ rw.raw.length) :
    ∃ reg, newReg32 rw o = .ok reg ∧ (reg.w v rw).1 = .ok () ∧
      (reg.w v rw).2.raw.length = rw.raw.length ∧
      ∀ k : Nat, ((k : Int) < o ∨ o + 4 ≤ (k : Int)) →
        (reg.w v rw).2.raw[k]? = rw.raw[k]? := by
  obtain ⟨reg, hreg, _, _, hw⟩ := newReg32_inside rw o ho (by omega)
  obtain ⟨rw1, hs, _, hl, hget⟩ := store32_inside rw o.toNat v (by omega)
  refine ⟨reg, hreg, ?_, ?_, ?_⟩
  · rw [hw, hs]
  · rw [hw, hs]; exact hl
  · intro k hk
    rw [hw, hs]
    simp only
    rw [hget k, if_neg (by omega)]

/-- C4 (instance). Write at offset 2 of an 8-byte region. -/
theorem reg32_write_frame_witness :
    ∃ reg, newReg32 (zeroRegion 4096 8) 2 = .ok reg ∧
      (reg.w 0xFFFFFFFF (zeroRegion 4096 8)).1 = .ok () ∧
      (reg.w 0xFFFFFFFF (zeroRegion 4096 8)).2.raw.length = (zeroRegion 4096 8).raw.length ∧
      ∀ k : Nat, ((k : Int) < 2 ∨ (2 : Int) + 4 ≤ (k : Int)) →
        (reg.w 0xFFFFFFFF (zeroRegion 4096 8)).2.raw[k]? = (zeroRegion 4096 8).raw[k]? :=
  reg32_write_frame (zeroRegion 4096 8) 2 0xFFFFFFFF (by decide) (by decide)

/-- C9. `r()` on an in-bounds `reg32` at offset `o` returns the little-endian
value `b0 + b1*2^8 + b2*2^16 + b3*2^24` of the bytes at `o .. o+3`, returns
the region as it was, and gives the same value on every region at the same
address that agrees on these four bytes. -/
theorem reg32_read_decodes_four_bytes (rw : rwer) (o : Int)
    (ho : 0 ≤ o) (hlen : o + 4 ≤ rw.raw.length) :
    ∃ reg b0 b1 b2 b3, newReg32 rw o = .ok reg ∧
      rw.raw[o.toNat]? = some b0 ∧ rw.raw[o.toNat + 1]? = some b1 ∧
      rw.raw[o.toNat + 2]? = some b2 ∧ rw.raw[o.toNat + 3]? = some b3 ∧
      reg.r rw = (.ok (b0.val + b1.val * 2 ^ 8 + b2.val * 2 ^ 16 + b3.val * 2 ^ 24), rw) ∧
      ∀ rw2 : rwer, rw2.addr = rw.addr →
        (∀ k : Nat, k < 4 → rw2.raw[o.toNat + k]? = rw.raw[o.toNat + k]?) →
        reg.r rw2 = (.ok (b0.val + b1.val * 2 ^ 8 + b2.val * 2 ^ 16 + b3.val * 2 ^ 24), rw2) := by
  obtain ⟨reg, hreg, _, hr, _⟩ := newReg32_inside rw o ho (by omega)
  obtain ⟨b0, h0⟩ := getElem?_of_lt rw.raw o.toNat (by omega)
  obtain ⟨b1, h1⟩ := getElem?_of_lt rw.raw (o.toNat + 1) (by omega)
  obtain ⟨b2, h2⟩ := getElem?_of_lt rw.raw (o.toNat + 2) (by omega)
  obtain ⟨b3, h3⟩ := getElem?_of_lt rw.raw (o.toNat + 3) (by omega)
  refine ⟨reg, b0, b1, b2, b3, hreg, h0, h1, h2, h3, ?_, ?_⟩
  · rw [hr, load32_inside rw o.toNat b0 b1 b2 b3 h0 h1 h2 h3]
    rfl
  · intro rw2 ha hk
    have g0 := hk 0 (by decide)
    have g1 := hk 1 (by decide)
    have g2 := hk 2 (by decide)
    have g3 := hk 3 (by decide)
    simp only [Nat.add_zero] at g0
    rw [hr, ← ha, load32_inside rw2 o.toNat b0 b1 b2 b3 (g0.trans h0) (g1.trans h1)
      (g2.trans h2) (g3.trans h3)]
    rfl

/-- C9 (instance). Read at offset 1 of a 6-byte region. -/
theorem reg32_read_decodes_four_bytes_witness :
    ∃ reg b0 b1 b2 b3, newReg32 ⟨4096, [9, 1, 2, 3, 4, 9]⟩ 1 = .ok reg ∧
      (⟨4096, [9, 1, 2, 3, 4, 9]⟩ : rwer).raw[(1 : Int).toNat]? = some b0 ∧
      (⟨4096, [9, 1, 2, 3, 4, 9]⟩ : rwer).raw[(1 : Int).toNat + 1]? = some b1 ∧
      (⟨4096, [9, 1, 2, 3, 4, 9]⟩ : rwer).raw[(1 : Int).toNat + 2]? = some b2 ∧
      (⟨4096, [9, 1, 2, 3, 4, 9]⟩ : rwer).raw[(1 : Int).toNat + 3]? = some b3 ∧
      reg.r ⟨4096, [9, 1, 2, 3, 4, 9]⟩ =
        (.ok (b0.val + b1.val * 2 ^ 8 + b2.val * 2 ^ 16 + b3.val * 2 ^ 24),
          ⟨4096, [9, 1, 2, 3, 4, 9]⟩) ∧
      ∀ rw2 : rwer, rw2.addr = (⟨4096, [9, 1, 2, 3, 4, 9]⟩ : rwer).addr →
        (∀ k : Nat, k < 4 → rw2.raw[(1 : Int).toNat + k]? =
          (⟨4096, [9, 1, 2, 3, 4, 9]⟩ : rwer).raw[(1 : Int).toNat + k]?) →
        reg.r rw2 =
          (.ok (b0.val + b1.val * 2 ^ 8 + b2.val * 2 ^ 16 + b3.val * 2 ^ 24), rw2) :=
  reg32_read_decodes_four_bytes ⟨4096, [9, 1, 2, 3, 4, 9]⟩ 1 (by decide) (by decide)

theorem newHRCfg_inside (rw : rwer) (o : Int) (h0 : 0 ≤ o) (h1 : o < rw.raw.length) :
    newHRCfg rw o = .ok ⟨rw.addr + o.toNat⟩ := by
  simp only [newHRCfg, addrOfIndex_inside rw o h0 h1]

theorem hrCfg_w_oversize (nHR nBytesCfgHR : Nat) (hr : hrCfg) (p : List Byte) (rw : rwer)
    (h : 4 + nHR * nBytesCfgHR < p.length) :
    hrCfg.w nHR nBytesCfgHR hr p rw = (.error .sliceBoundsOutOfRange, rw) := by
  simp only [hrCfg.w, unsafeSlice]
  rw [if_neg (by omega)]

theorem hrCfg_w_inside (nHR nBytesCfgHR : Nat) (rw : rwer) (j : Nat) (p : List Byte)
    (hc : p.length ≤ 4 + nHR * nBytesCfgHR) (hj : j + p.length ≤ rw.raw.length) :
    ∃ rw1, hrCfg.w nHR nBytesCfgHR ⟨rw.addr + j⟩ p rw = (.ok (p.length, none), rw1) ∧
      rw1.addr = rw.addr ∧ rw1.raw.length = rw.raw.length ∧
      ∀ k : Nat, rw1.raw[k]? =
        if j ≤ k ∧ k < j + p.length then p[k - j]? else rw.raw[k]? := by
  obtain ⟨rw1, hs, ha, hl, hget⟩ := storeBytes_inside p rw j hj
  refine ⟨rw1, ?_, ha, hl, hget⟩
  simp only [hrCfg.w, unsafeSlice]
  rw [if_pos hc]
  simp only [copy, Nat.min_self, List.take_length, hs]

theorem hrCfg_w_ok (nHR nBytesCfgHR : Nat) (rw rw1 : rwer) (a : Nat) (p : List Byte)
    (n : Nat) (err : GoError)
    (h : hrCfg.w nHR nBytesCfgHR ⟨a⟩ p rw = (.ok (n, err), rw1)) :
    n = p.length ∧ err = none ∧ p.length ≤ 4 + nHR * nBytesCfgHR ∧
      storeBytes rw a p = .ok rw1 := by
  simp only [hrCfg.w, unsafeSlice] at h
  by_cases hc : p.length ≤ 4 + nHR * nBytesCfgHR
  · rw [if_pos hc] at h
    simp only [copy, Nat.min_self, List.take_length] at h
    cases hs : storeBytes rw a p with
    | error e => rw [hs] at h; simp at h
    | ok rw2 =>
      rw [hs] at h
      simp only [Prod.mk.injEq, Except.ok.injEq] at h
      obtain ⟨⟨h1, h2⟩, h3⟩ := h
      exact ⟨h1.symm, h2.symm, hc, by rw [h3]⟩
  · rw [if_neg hc] at h
    simp at h

theorem hrCfg_w_error (nHR nBytesCfgHR : Nat) (rw : rwer) (hr : hrCfg) (p : List Byte)
    (e : Fault) (rw1 : rwer)
    (h : hrCfg.w nHR nBytesCfgHR hr p rw = (.error e, rw1)) : rw1 = rw := by
  simp only [hrCfg.w, unsafeSlice] at h
  by_cases hc : p.length ≤ 4 + nHR * nBytesCfgHR
  · rw [if_pos hc] at h
    simp only [copy, Nat.min_self, List.take_length] at h
    cases hs : storeBytes rw hr.ptr p with
    | error e1 =>
      rw [hs] at h
      simp only [Prod.mk.injEq] at h
      exact h.2.symm
    | ok rw2 => rw [hs] at h; simp at h
  · rw [if_neg hc] at h
    simp only [Prod.mk.injEq] at h
    exact h.2.symm

theorem storeBytes_ok_spec (bs : List Byte) (rw rw1 : rwer) (j : Nat)
    (h : storeBytes rw (rw.addr + j) bs = .ok rw1) :
    rw1.addr = rw.addr ∧ rw1.raw.length = rw.raw.length ∧
      (∀ k : Nat, rw1.raw[k]? =
        if j ≤ k ∧ k < j + bs.length then bs[k - j]? else rw.raw[k]?) ∧
      (bs ≠ [] → j + bs.length ≤ rw.raw.length) := by
  by_cases hbs : bs = []
  · subst hbs
    simp only [storeBytes, Except.ok.injEq] at h
    subst h
    refine ⟨rfl, rfl, ?_, fun hne => absurd rfl hne⟩
    intro k
    rw [if_neg (by simp)]
  · have hin := (storeBytes_ok_inside bs rw rw1 _ h hbs).2
    have hin2 : j + bs.length ≤ rw.raw.length := by omega
    obtain ⟨rw2, h2, ha, hl, hget⟩ := storeBytes_inside bs rw j hin2
    rw [h] at h2
    simp only [Except.ok.injEq] at h2
    subst h2
    exact ⟨ha, hl, hget, fun _ => hin2⟩

theorem hrCfg_w_result_frame (nHR nBytesCfgHR : Nat) (rw : rwer) (j : Nat) (p : List Byte) :
    (hrCfg.w nHR nBytesCfgHR ⟨rw.addr + j⟩ p rw).2.raw.length = rw.raw.length ∧
      ∀ k : Nat, (k < j ∨ j + min p.length (4 + nHR * nBytesCfgHR) ≤ k) →
        (hrCfg.w nHR nBytesCfgHR ⟨rw.addr + j⟩ p rw).2.raw[k]? = rw.raw[k]? := by
  rcases hres : hrCfg.w nHR nBytesCfgHR ⟨rw.addr + j⟩ p rw with ⟨res, rw1⟩
  cases res with
  | error e =>
    have := hrCfg_w_error nHR nBytesCfgHR rw _ p e rw1 hres
    subst this
    exact ⟨rfl, fun _ _ => rfl⟩
  | ok v =>
    obtain ⟨n, err⟩ := v
    obtain ⟨_, _, hc, hs⟩ := hrCfg_w_ok nHR nBytesCfgHR rw rw1 _ p n err hres
    obtain ⟨_, hl, hget, _⟩ := storeBytes_ok_spec p rw rw1 j hs
    refine ⟨hl, ?_⟩
    intro k hk
    simp only
    rw [hget k, if_neg]
    rw [Nat.min_eq_left hc] at hk
    omega

theorem zeroRegion_length (a n : Nat) : (zeroRegion a n).raw.length = n := by
  simp [zeroRegion]

/-- C2 (as amended). For a payload `p` no longer than the capacity
`4 + nHR*nBytesCfgHR` that fits in the region from the block's offset,
`hrCfg.w(p)` returns the count `min(len(p), C) = len(p)` and a nil error.
For a payload longer than the capacity the slice expression of `unsafeSlice`
panics with slice bounds out of range, and the region is left as it was. -/
theorem hrCfg_w_count_or_panic (nHR nBytesCfgHR : Nat) (rw : rwer) (o : Int)
    (p : List Byte) (ho : 0 ≤ o) (hlt : o < rw.raw.length) :
    ∃ hr, newHRCfg rw o = .ok hr ∧
      (p.length ≤ 4 + nHR * nBytesCfgHR → o + p.length ≤ rw.raw.length →
        ∃ rw1, hrCfg.w nHR nBytesCfgHR hr p rw =
          (.ok (min p.length (4 + nHR * nBytesCfgHR), none), rw1)) ∧
      (4 + nHR * nBytesCfgHR < p.length →
        hrCfg.w nHR nBytesCfgHR hr p rw = (.error .sliceBoundsOutOfRange, rw)) := by
  refine ⟨_, newHRCfg_inside rw o ho hlt, ?_, ?_⟩
  · intro hc hfit
    obtain ⟨rw1, h, _⟩ := hrCfg_w_inside nHR nBytesCfgHR rw o.toNat p hc (by omega)
    exact ⟨rw1, by rw [h, Nat.min_eq_left hc]⟩
  · intro hc
    exact hrCfg_w_oversize nHR nBytesCfgHR _ p rw hc

/-- C2 (instance). A block of capacity 68 at offset 512 of a 1024-byte region. -/
theorem hrCfg_w_count_or_panic_witness :
    ∃ hr, newHRCfg (zeroRegion 4096 1024) 512 = .ok hr ∧
      ((List.replicate 68 (255 : Byte)).length ≤ 4 + 8 * 8 →
        (512 : Int) + (List.replicate 68 (255 : Byte)).length ≤
          (zeroRegion 4096 1024).raw.length →
        ∃ rw1, hrCfg.w 8 8 hr (List.replicate 68 255) (zeroRegion 4096 1024) =
          (.ok (min (List.replicate 68 (255 : Byte)).length (4 + 8 * 8), none), rw1)) ∧
      (4 + 8 * 8 < (List.replicate 68 (255 : Byte)).length →
        hrCfg.w 8 8 hr (List.replicate 68 255) (zeroRegion 4096 1024) =
          (.error .sliceBoundsOutOfRange, zeroRegion 4096 1024)) :=
  hrCfg_w_count_or_panic 8 8 (zeroRegion 4096 1024) 512 (List.replicate 68 255)
    (by decide) (by rw [zeroRegion_length]; decide)

/-- C2 (counterexample). The scenario of the spec: capacity `4 + 8*8 = 68`, block
at offset 512 of 1024 zero bytes, payload of 100 bytes `0xFF`.  The call does
not return 68: it panics with slice bounds out of range. -/
theorem hrCfg_w_oversize_payload_panics :
    newHRCfg (zeroRegion 4096 1024) 512 = .ok ⟨4608⟩ ∧
      (hrCfg.w 8 8 ⟨4608⟩ (List.replicate 100 255) (zeroRegion 4096 1024)).1 =
        .error .sliceBoundsOutOfRange ∧
      (hrCfg.w 8 8 ⟨4608⟩ (List.replicate 100 255) (zeroRegion 4096 1024)).1 ≠
        .ok (min 100 (4 + 8 * 8), none) := by
  have h : (hrCfg.w 8 8 ⟨4608⟩ (List.replicate 100 255) (zeroRegion 4096 1024)).1 =
      .error .sliceBoundsOutOfRange := by
    rw [hrCfg_w_oversize 8 8 ⟨4608⟩ (List.replicate 100 255) (zeroRegion 4096 1024)
      (by rw [List.length_replicate]; decide)]
  refine ⟨?_, h, ?_⟩
  · exact newHRCfg_inside (zeroRegion 4096 1024) 512 (by decide) (by rw [zeroRegion_length]; decide)
  · rw [h]
    exact fun hne => Except.noConfusion hne

/-- C6. For an `hrCfg` at an in-bounds offset, whenever `w(p)` returns `n`,
`r(i)` afterwards returns `p[i]` for every `i < n`; and `w(p)` does return
(with `n = len(p)`) when `p` is no longer than the capacity and fits in the
region from the block's offset. -/
theorem hrCfg_read_after_bulk_write (nHR nBytesCfgHR : Nat) (rw : rwer) (o : Int)
    (p : List Byte) (haddr : rw.addr + rw.raw.length ≤ 2 ^ 64)
    (ho : 0 ≤ o) (hlt : o < rw.raw.length) :
    ∃ hr, newHRCfg rw o = .ok hr ∧
      (p.length ≤ 4 + nHR * nBytesCfgHR → o + p.length ≤ rw.raw.length →
        ∃ rw1, hrCfg.w nHR nBytesCfgHR hr p rw = (.ok (p.length, none), rw1)) ∧
      ∀ (n : Nat) (err : GoError) (rw1 : rwer),
        hrCfg.w nHR nBytesCfgHR hr p rw = (.ok (n, err), rw1) →
        ∀ i : Nat, i < n → ∃ b, p[i]? = some b ∧ hrCfg.r hr (i : Int) rw1 = (.ok b, rw1) := by
  refine ⟨_, newHRCfg_inside rw o ho hlt, ?_, ?_⟩
  · intro hc hfit
    obtain ⟨rw1, h, _⟩ := hrCfg_w_inside nHR nBytesCfgHR rw o.toNat p hc (by omega)
    exact ⟨rw1, h⟩
  · intro n err rw1 hw i hi
    obtain ⟨hn, _, _, hs⟩ := hrCfg_w_ok nHR nBytesCfgHR rw rw1 _ p n err hw
    subst hn
    have hne : p ≠ [] := by
      intro h0
      subst h0
      simp at hi
    obtain ⟨ha, hl, hget, hin⟩ := storeBytes_ok_spec p rw rw1 o.toNat hs
    have hin2 := hin hne
    obtain ⟨b, hb⟩ := getElem?_of_lt p i hi
    refine ⟨b, hb, ?_⟩
    have hk : rw1.raw[o.toNat + i]? = some b := by
      rw [hget, if_pos (by omega)]
      simpa using hb
    have hadd : unsafeAdd (rw.addr + o.toNat) (i : Int) = rw1.addr + (o.toNat + i) := by
      rw [unsafeAdd_inside _ _ (by omega) (by push_cast; omega), ha]
      omega
    simp only [hrCfg.r, hadd, loadByte_inside rw1 _ b hk]

/-- C6 (instance). Three bytes written at offset 2 of an 8-byte region. -/
theorem hrCfg_read_after_bulk_write_witness :
    ∃ hr, newHRCfg (zeroRegion 4096 8) 2 = .ok hr ∧
      (([7, 8, 9] : List Byte).length ≤ 4 + 1 * 1 →
        (2 : Int) + ([7, 8, 9] : List Byte).length ≤ (zeroRegion 4096 8).raw.length →
        ∃ rw1, hrCfg.w 1 1 hr [7, 8, 9] (zeroRegion 4096 8) =
          (.ok (([7, 8, 9] : List Byte).length, none), rw1)) ∧
      ∀ (n : Nat) (err : GoError) (rw1 : rwer),
        hrCfg.w 1 1 hr [7, 8, 9] (zeroRegion 4096 8) = (.ok (n, err), rw1) →
        ∀ i : Nat, i < n →
          ∃ b, ([7, 8, 9] : List Byte)[i]? = some b ∧ hrCfg.r hr (i : Int) rw1 = (.ok b, rw1) :=
  hrCfg_read_after_bulk_write 1 1 (zeroRegion 4096 8) 2 [7, 8, 9]
    (by decide) (by decide) (by decide)

/-- C7 (as amended). `hrCfg.w(p)` on a block at offset `o` with capacity
`C = 4 + nHR*nBytesCfgHR` keeps the length of the region and every byte at an
index outside `[o, o + min(len(p), C))`.  With `len(p) > C` it panics and the
whole region, the byte at `o + C` included, is as before: no byte of `p` is
copied.  With `len(p) ≤ C` and the payload fitting in the region, the bytes of
`p` land at `[o, o + len(p))`. -/
theorem hrCfg_w_frame (nHR nBytesCfgHR : Nat) (rw : rwer) (o : Int) (p : List Byte)
    (ho : 0 ≤ o) (hlt : o < rw.raw.length) :
    ∃ hr, newHRCfg rw o = .ok hr ∧
      (hrCfg.w nHR nBytesCfgHR hr p rw).2.raw.length = rw.raw.length ∧
      (∀ k : Nat, ((k : Int) < o ∨
          o + (min p.length (4 + nHR * nBytesCfgHR) : Nat) ≤ (k : Int)) →
        (hrCfg.w nHR nBytesCfgHR hr p rw).2.raw[k]? = rw.raw[k]?) ∧
      (4 + nHR * nBytesCfgHR < p.length →
        hrCfg.w nHR nBytesCfgHR hr p rw = (.error .sliceBoundsOutOfRange, rw)) ∧
      (p.length ≤ 4 + nHR * nBytesCfgHR → o + p.length ≤ rw.raw.length →
        (hrCfg.w nHR nBytesCfgHR hr p rw).1 = .ok (p.length, none) ∧
        ∀ i : Nat, i < p.length →
          (hrCfg.w nHR nBytesCfgHR hr p rw).2.raw[o.toNat + i]? = p[i]?) := by
  obtain ⟨hl, hframe⟩ := hrCfg_w_result_frame nHR nBytesCfgHR rw o.toNat p
  refine ⟨_, newHRCfg_inside rw o ho hlt, hl, ?_, ?_, ?_⟩
  · intro k hk
    exact hframe k (by omega)
  · intro hc
    exact hrCfg_w_oversize nHR nBytesCfgHR _ p rw hc
  · intro hc hfit
    obtain ⟨rw1, h, _, _, hget⟩ := hrCfg_w_inside nHR nBytesCfgHR rw o.toNat p hc (by omega)
    rw [h]
    refine ⟨rfl, ?_⟩
    intro i hi
    simp only
    rw [hget, if_pos (by omega)]
    simp

/-- C7 (instance). A block of capacity 5 at offset 1 of an 8-byte region. -/
theorem hrCfg_w_frame_witness :
    ∃ hr, newHRCfg (zeroRegion 4096 8) 1 = .ok hr ∧
      (hrCfg.w 1 1 hr [7, 8, 9] (zeroRegion 4096 8)).2.raw.length =
        (zeroRegion 4096 8).raw.length ∧
      (∀ k : Nat, ((k : Int) < 1 ∨
          (1 : Int) + (min ([7, 8, 9] : List Byte).length (4 + 1 * 1) : Nat) ≤ (k : Int)) →
        (hrCfg.w 1 1 hr [7, 8, 9] (zeroRegion 4096 8)).2.raw[k]? =
          (zeroRegion 4096 8).raw[k]?) ∧
      (4 + 1 * 1 < ([7, 8, 9] : List Byte).length →
        hrCfg.w 1 1 hr [7, 8, 9] (zeroRegion 4096 8) =
          (.error .sliceBoundsOutOfRange, zeroRegion 4096 8)) ∧
      (([7, 8, 9] : List Byte).length ≤ 4 + 1 * 1 →
        (1 : Int) + ([7, 8, 9] : List Byte).length ≤ (zeroRegion 4096 8).raw.length →
        (hrCfg.w 1 1 hr [7, 8, 9] (zeroRegion 4096 8)).1 =
          .ok (([7, 8, 9] : List Byte).length, none) ∧
        ∀ i : Nat, i < ([7, 8, 9] : List Byte).length →
          (hrCfg.w 1 1 hr [7, 8, 9] (zeroRegion 4096 8)).2.raw[(1 : Int).toNat + i]? =
            ([7, 8, 9] : List Byte)[i]?) :=
  hrCfg_w_frame 1 1 (zeroRegion 4096 8) 1 [7, 8, 9] (by decide) (by decide)

/-- C7 (counterexample). Capacity `4 + 1*1 = 5`, block at offset 1 of 8 zero
bytes, payload of 6 bytes `0xFF`: the call panics, the region is untouched and
the byte at the block's offset is not the first byte of the payload, so the
first 5 bytes of the payload were not copied. -/
theorem hrCfg_w_oversize_copies_nothing :
    newHRCfg (zeroRegion 4096 8) 1 = .ok ⟨4097⟩ ∧
      hrCfg.w 1 1 ⟨4097⟩ (List.replicate 6 255) (zeroRegion 4096 8) =
        (.error .sliceBoundsOutOfRange, zeroRegion 4096 8) ∧
      (hrCfg.w 1 1 ⟨4097⟩ (List.replicate 6 255) (zeroRegion 4096 8)).2.raw[1]? = some 0 ∧
      (List.replicate 6 (255 : Byte))[0]? = some 255 := by
  refine ⟨rfl, rfl, rfl, rfl⟩

/-- C10. `hrCfg.r(i)` on a block at offset `o` returns the region byte at
`o + i` for every index `i` with `0 ≤ o + i < len`, whatever the capacity of
the block, and returns the region as it was. -/
theorem hrCfg_r_reads_region_byte (rw : rwer) (o i : Int)
    (haddr : rw.addr + rw.raw.length ≤ 2 ^ 64)
    (ho : 0 ≤ o) (hlt : o < rw.raw.length)
    (hi0 : 0 ≤ o + i) (hi1 : o + i < rw.raw.length) :
    ∃ hr b, newHRCfg rw o = .ok hr ∧ rw.raw[(o + i).toNat]? = some b ∧
      hrCfg.r hr i rw = (.ok b, rw) := by
  obtain ⟨b, hb⟩ := getElem?_of_lt rw.raw (o + i).toNat (by omega)
  refine ⟨_, b, newHRCfg_inside rw o ho hlt, hb, ?_⟩
  have hadd : unsafeAdd (rw.addr + o.toNat) i = rw.addr + (o + i).toNat := by
    rw [unsafeAdd_inside _ _ (by push_cast; omega) (by push_cast; omega)]
    omega
  simp only [hrCfg.r, hadd, loadByte_inside rw _ b hb]

/-- C10 (instance). With capacity `4 + 1*1 = 5`, index 6 of a block at offset 1
of a 9-byte region reads the byte at offset 7, outside the block. -/
theorem hrCfg_r_reads_region_byte_witness :
    ∃ hr b, newHRCfg ⟨4096, [0, 1, 2, 3, 4, 5, 6, 7, 8]⟩ 1 = .ok hr ∧
      (⟨4096, [0, 1, 2, 3, 4, 5, 6, 7, 8]⟩ : rwer).raw[((1 : Int) + 6).toNat]? = some b ∧
      hrCfg.r hr 6 ⟨4096, [0, 1, 2, 3, 4, 5, 6, 7, 8]⟩ =
        (.ok b, ⟨4096, [0, 1, 2, 3, 4, 5, 6, 7, 8]⟩) :=
  hrCfg_r_reads_region_byte ⟨4096, [0, 1, 2, 3, 4, 5, 6, 7, 8]⟩ 1 6
    (by decide) (by decide) (by decide) (by decide) (by decide)

theorem loadByte_congr (m1 m : rwer) (j : Nat) (ha : m1.addr = m.addr)
    (h : m1.raw[j]? = m.raw[j]?) : loadByte m1 (m.addr + j) = loadByte m (m.addr + j) := by
  simp [loadByte, ha, h]

theorem load32_congr (m1 m : rwer) (j : Nat) (ha : m1.addr = m.addr)
    (h : ∀ d : Nat, d < 4 → m1.raw[j + d]? = m.raw[j + d]?) :
    load32 m1 (m.addr + j) = load32 m (m.addr + j) := by
  have h0 := h 0 (by decide)
  simp only [Nat.add_zero] at h0
  simp only [load32, Nat.add_assoc, loadByte_congr m1 m j ha h0,
    loadByte_congr m1 m (j + 1) ha (h 1 (by decide)),
    loadByte_congr m1 m (j + 2) ha (h 2 (by decide)),
    loadByte_congr m1 m (j + 3) ha (h 3 (by decide))]

theorem load32_after_store32 (m : rwer) (j v : Nat) (m1 : rwer) (hv : v < 2 ^ 32)
    (ha : m1.addr = m.addr)
    (hget : ∀ k : Nat, m1.raw[k]? =
      if j ≤ k ∧ k < j + 4 then (encode32 v)[k - j]? else m.raw[k]?) :
    load32 m1 (m.addr + j) = .ok v := by
  have e0 : m1.raw[j]? = some (leByte v 0) := by
    rw [hget]; simp [encode32]
  have e1 : m1.raw[j + 1]? = some (leByte v 1) := by
    rw [hget]; simp [encode32]
  have e2 : m1.raw[j + 2]? = some (leByte v 2) := by
    rw [hget]; simp [encode32]
  have e3 : m1.raw[j + 3]? = some (leByte v 3) := by
    rw [hget]; simp [encode32]
  rw [← ha, load32_inside m1 j _ _ _ _ e0 e1 e2 e3, decode32_leByte v hv]

theorem daqFIFO_pin_inside (daq : daqFIFO) (i : Nat) (hi : i < 6) :
    daq.pin (i : Int) = .ok (daq.pins ⟨i, hi⟩) := by
  have h : (0 : Int) ≤ (i : Int) ∧ (i : Int) < 6 := by omega
  simp only [daqFIFO.pin, dif_pos h, Int.toNat_ofNat]

theorem daqFIFO_pin_outside (daq : daqFIFO) (i : Int) (hi : ¬ (0 ≤ i ∧ i < 6)) :
    daq.pin i = .error .indexOutOfRange := by
  simp only [daqFIFO.pin, dif_neg hi]

theorem newDAQFIFO_inside (rw : rwer) (B : Int) (hB : 0 ≤ B)
    (hlen : B + 24 ≤ rw.raw.length) :
    ∃ daq, newDAQFIFO regs rw B = .ok daq ∧
      ∀ (i : Nat) (hi : i < 6),
        (∀ m, (daq.pins ⟨i, hi⟩).r m = (load32 m (rw.addr + (B.toNat + 4 * i)), m)) ∧
        (∀ v m, (daq.pins ⟨i, hi⟩).w v m =
          match store32 m (rw.addr + (B.toNat + 4 * i)) v with
          | .ok m1 => (.ok (), m1)
          | .error e => (.error e, m)) := by
  obtain ⟨p0, e0, _, r0, w0⟩ := newReg32_inside rw (B + 4 * 0) (by omega) (by omega)
  obtain ⟨p1, e1, _, r1, w1⟩ := newReg32_inside rw (B + 4 * 1) (by omega) (by omega)
  obtain ⟨p2, e2, _, r2, w2⟩ := newReg32_inside rw (B + 4 * 2) (by omega) (by omega)
  obtain ⟨p3, e3, _, r3, w3⟩ := newReg32_inside rw (B + 4 * 3) (by omega) (by omega)
  obtain ⟨p4, e4, _, r4, w4⟩ := newReg32_inside rw (B + 4 * 4) (by omega) (by omega)
  obtain ⟨p5, e5, _, r5, w5⟩ := newReg32_inside rw (B + 4 * 5) (by omega) (by omega)
  have t0 : (B + 4 * 0).toNat = B.toNat + 4 * 0 := by omega
  have t1 : (B + 4 * 1).toNat = B.toNat + 4 * 1 := by omega
  have t2 : (B + 4 * 2).toNat = B.toNat + 4 * 2 := by omega
  have t3 : (B + 4 * 3).toNat = B.toNat + 4 * 3 := by omega
  have t4 : (B + 4 * 4).toNat = B.toNat + 4 * 4 := by omega
  have t5 : (B + 4 * 5).toNat = B.toNat + 4 * 5 := by omega
  rw [t0] at r0 w0
  rw [t1] at r1 w1
  rw [t2] at r2 w2
  rw [t3] at r3 w3
  rw [t4] at r4 w4
  rw [t5] at r5 w5
  refine ⟨⟨![p0, p1, p2, p3, p4, p5]⟩, ?_, ?_⟩
  · simp only [newDAQFIFO, regs, sz, e0, e1, e2, e3, e4, e5]
  · intro i hi
    interval_cases i
    · exact ⟨r0, w0⟩
    · exact ⟨r1, w1⟩
    · exact ⟨r2, w2⟩
    · exact ⟨r3, w3⟩
    · exact ⟨r4, w4⟩
    · exact ⟨r5, w5⟩

theorem daqFIFO_r_eq (daq : daqFIFO) (a0 b : Nat)
    (H : ∀ (i : Nat) (hi : i < 6),
      (∀ m, (daq.pins ⟨i, hi⟩).r m = (load32 m (a0 + (b + 4 * i)), m)) ∧
      (∀ v m, (daq.pins ⟨i, hi⟩).w v m =
        match store32 m (a0 + (b + 4 * i)) v with
        | .ok m1 => (.ok (), m1)
        | .error e => (.error e, m)))
    (i : Nat) (hi : i < 6) (m : rwer) :
    daq.r (i : Int) m = (load32 m (a0 + (b + 4 * i)), m) := by
  simp only [daqFIFO.r, daqFIFO_pin_inside daq i hi, (H i hi).1]

theorem daqFIFO_step (daq : daqFIFO) (a0 b : Nat)
    (H : ∀ (i : Nat) (hi : i < 6),
      (∀ m, (daq.pins ⟨i, hi⟩).r m = (load32 m (a0 + (b + 4 * i)), m)) ∧
      (∀ v m, (daq.pins ⟨i, hi⟩).w v m =
        match store32 m (a0 + (b + 4 * i)) v with
        | .ok m1 => (.ok (), m1)
        | .error e => (.error e, m)))
    (m : rwer) (hm : m.addr = a0) (hl : b + 24 ≤ m.raw.length)
    (i v : Nat) (hi : i < 6) (hv : v < 2 ^ 32) :
    ∃ m1, daq.w (i : Int) v m = (.ok (), m1) ∧ m1.addr = a0 ∧
      m1.raw.length = m.raw.length ∧
      (∀ k : Nat, (k < b + 4 * i ∨ b + 4 * i + 4 ≤ k) → m1.raw[k]? = m.raw[k]?) ∧
      (∀ d : Nat, d < 4 → m1.raw[b + 4 * i + d]? = some (leByte v d)) ∧
      daq.r (i : Int) m1 = (.ok v, m1) ∧
      ∀ j : Nat, j < 6 → j ≠ i → (daq.r (j : Int) m1).1 = (daq.r (j : Int) m).1 := by
  subst hm
  obtain ⟨m1, hs, ha, hlen, hget⟩ := store32_inside m (b + 4 * i) v (by omega)
  refine ⟨m1, ?_, ha, hlen, ?_, ?_, ?_, ?_⟩
  · simp only [daqFIFO.w, daqFIFO_pin_inside daq i hi, (H i hi).2, hs]
  · intro k hk
    rw [hget k, if_neg (by omega)]
  · intro d hd
    rw [hget, if_pos (by omega)]
    have : b + 4 * i + d - (b + 4 * i) = d := by omega
    rw [this]
    interval_cases d <;> rfl
  · rw [daqFIFO_r_eq daq m.addr b H i hi, load32_after_store32 m (b + 4 * i) v m1 hv ha hget]
  · intro j hj hji
    rw [daqFIFO_r_eq daq m.addr b H j hj, daqFIFO_r_eq daq m.addr b H j hj]
    simp only
    apply load32_congr m1 m (b + 4 * j) ha
    intro d hd
    rw [hget, if_neg (by omega)]

theorem load32_ok_of_inside (m : rwer) (j : Nat) (hj : j + 4 ≤ m.raw.length) :
    ∃ x, load32 m (m.addr + j) = .ok x := by
  obtain ⟨b0, h0⟩ := getElem?_of_lt m.raw j (by omega)
  obtain ⟨b1, h1⟩ := getElem?_of_lt m.raw (j + 1) (by omega)
  obtain ⟨b2, h2⟩ := getElem?_of_lt m.raw (j + 2) (by omega)
  obtain ⟨b3, h3⟩ := getElem?_of_lt m.raw (j + 3) (by omega)
  exact ⟨_, load32_inside m j b0 b1 b2 b3 h0 h1 h2 h3⟩

/-- C5. A `daqFIFO` built by `newDAQFIFO` at base `B` with `B + 24` within the
region and the register indices 0..5: `w(i, v)` for `i` in 0..5 succeeds, keeps
every byte outside `[B+4i, B+4i+4)`, puts the four bytes of `v` there, a
following `r(i)` returns `v`, and `r(j)` for `j ≠ i` returns what it returned
before.  After the six writes `w(0, v0) .. w(5, v5)` each `r(i)` returns `vi`. -/
theorem daqFIFO_layout (rw : rwer) (B : Int) (hB : 0 ≤ B)
    (hlen : B + 24 ≤ rw.raw.length) :
    ∃ daq, newDAQFIFO regs rw B = .ok daq ∧
      (∀ i v : Nat, i < 6 → v < 2 ^ 32 →
        ∃ rw1, daq.w (i : Int) v rw = (.ok (), rw1) ∧
          rw1.raw.length = rw.raw.length ∧
          (∀ k : Nat, ((k : Int) < B + 4 * i ∨ B + 4 * i + 4 ≤ (k : Int)) →
            rw1.raw[k]? = rw.raw[k]?) ∧
          (∀ d : Nat, d < 4 → rw1.raw[(B + 4 * i).toNat + d]? = some (leByte v d)) ∧
          daq.r (i : Int) rw1 = (.ok v, rw1) ∧
          ∀ j : Nat, j < 6 → j ≠ i → (daq.r (j : Int) rw1).1 = (daq.r (j : Int) rw).1) ∧
      (∀ v0 v1 v2 v3 v4 v5 : Nat, v0 < 2 ^ 32 → v1 < 2 ^ 32 → v2 < 2 ^ 32 →
        v3 < 2 ^ 32 → v4 < 2 ^ 32 → v5 < 2 ^ 32 →
        ∃ rw1 rw2 rw3 rw4 rw5 rw6,
          daq.w 0 v0 rw = (.ok (), rw1) ∧ daq.w 1 v1 rw1 = (.ok (), rw2) ∧
          daq.w 2 v2 rw2 = (.ok (), rw3) ∧ daq.w 3 v3 rw3 = (.ok (), rw4) ∧
          daq.w 4 v4 rw4 = (.ok (), rw5) ∧ daq.w 5 v5 rw5 = (.ok (), rw6) ∧
          daq.r 0 rw6 = (.ok v0, rw6) ∧ daq.r 1 rw6 = (.ok v1, rw6) ∧
          daq.r 2 rw6 = (.ok v2, rw6) ∧ daq.r 3 rw6 = (.ok v3, rw6) ∧
          daq.r 4 rw6 = (.ok v4, rw6) ∧ daq.r 5 rw6 = (.ok v5, rw6)) := by
  obtain ⟨daq, hdaq, H⟩ := newDAQFIFO_inside rw B hB hlen
  have hb : B.toNat + 24 ≤ rw.raw.length := by omega
  refine ⟨daq, hdaq, ?_, ?_⟩
  · intro i v hi hv
    obtain ⟨rw1, hw, _, hl, hfr, hby, hr, hoth⟩ :=
      daqFIFO_step daq rw.addr B.toNat H rw rfl hb i v hi hv
    refine ⟨rw1, hw, hl, ?_, ?_, hr, hoth⟩
    · intro k hk
      exact hfr k (by omega)
    · intro d hd
      have : (B + 4 * (i : Int)).toNat = B.toNat + 4 * i := by omega
      rw [this]
      exact hby d hd
  · intro v0 v1 v2 v3 v4 v5 h0 h1 h2 h3 h4 h5
    obtain ⟨rw1, w1, a1, l1, _, _, r1, o1⟩ :=
      daqFIFO_step daq rw.addr B.toNat H rw rfl hb 0 v0 (by decide) h0
    obtain ⟨rw2, w2, a2, l2, _, _, r2, o2⟩ :=
      daqFIFO_step daq rw.addr B.toNat H rw1 a1 (by omega) 1 v1 (by decide) h1
    obtain ⟨rw3, w3, a3, l3, _, _, r3, o3⟩ :=
      daqFIFO_step daq rw.addr B.toNat H rw2 a2 (by omega) 2 v2 (by decide) h2
    obtain ⟨rw4, w4, a4, l4, _, _, r4, o4⟩ :=
      daqFIFO_step daq rw.addr B.toNat H rw3 a3 (by omega) 3 v3 (by decide) h3
    obtain ⟨rw5, w5, a5, l5, _, _, r5, o5⟩ :=
      daqFIFO_step daq rw.addr B.toNat H rw4 a4 (by omega) 4 v4 (by decide) h4
    obtain ⟨rw6, w6, a6, l6, _, _, r6, o6⟩ :=
      daqFIFO_step daq rw.addr B.toNat H rw5 a5 (by omega) 5 v5 (by decide) h5
    have snd : ∀ (j : Nat) (_ : j < 6) (x : Except Fault Nat),
        (daq.r (j : Int) rw6).1 = x → daq.r (j : Int) rw6 = (x, rw6) := by
      intro j hj x hx
      rw [daqFIFO_r_eq daq rw.addr B.toNat H j hj] at hx ⊢
      rw [← hx]
    refine ⟨rw1, rw2, rw3, rw4, rw5, rw6, w1, w2, w3, w4, w5, w6, ?_, ?_, ?_, ?_, ?_, ?_⟩
    · apply snd 0 (by decide)
      rw [o6 0 (by decide) (by decide), o5 0 (by decide) (by decide),
        o4 0 (by decide) (by decide), o3 0 (by decide) (by decide),
        o2 0 (by decide) (by decide), r1]
    · apply snd 1 (by decide)
      rw [o6 1 (by decide) (by decide), o5 1 (by decide) (by decide),
        o4 1 (by decide) (by decide), o3 1 (by decide) (by decide), r2]
    · apply snd 2 (by decide)
      rw [o6 2 (by decide) (by decide), o5 2 (by decide) (by decide),
        o4 2 (by decide) (by decide), r3]
    · apply snd 3 (by decide)
      rw [o6 3 (by decide) (by decide), o5 3 (by decide) (by decide), r4]
    · apply snd 4 (by decide)
      rw [o6 4 (by decide) (by decide), r5]
    · exact r6

/-- C5 (instance). The scenario of the spec: a FIFO block at base 0 of a region
of 1024 zero bytes. -/
theorem daqFIFO_layout_witness :
    ∃ daq, newDAQFIFO regs (zeroRegion 4096 1024) 0 = .ok daq ∧
      (∀ i v : Nat, i < 6 → v < 2 ^ 32 →
        ∃ rw1, daq.w (i : Int) v (zeroRegion 4096 1024) = (.ok (), rw1) ∧
          rw1.raw.length = (zeroRegion 4096 1024).raw.length ∧
          (∀ k : Nat, ((k : Int) < 0 + 4 * i ∨ 0 + 4 * i + 4 ≤ (k : Int)) →
            rw1.raw[k]? = (zeroRegion 4096 1024).raw[k]?) ∧
          (∀ d : Nat, d < 4 →
            rw1.raw[((0 : Int) + 4 * i).toNat + d]? = some (leByte v d)) ∧
          daq.r (i : Int) rw1 = (.ok v, rw1) ∧
          ∀ j : Nat, j < 6 → j ≠ i →
            (daq.r (j : Int) rw1).1 = (daq.r (j : Int) (zeroRegion 4096 1024)).1) ∧
      (∀ v0 v1 v2 v3 v4 v5 : Nat, v0 < 2 ^ 32 → v1 < 2 ^ 32 → v2 < 2 ^ 32 →
        v3 < 2 ^ 32 → v4 < 2 ^ 32 → v5 < 2 ^ 32 →
        ∃ rw1 rw2 rw3 rw4 rw5 rw6,
          daq.w 0 v0 (zeroRegion 4096 1024) = (.ok (), rw1) ∧
          daq.w 1 v1 rw1 = (.ok (), rw2) ∧
          daq.w 2 v2 rw2 = (.ok (), rw3) ∧ daq.w 3 v3 rw3 = (.ok (), rw4) ∧
          daq.w 4 v4 rw4 = (.ok (), rw5) ∧ daq.w 5 v5 rw5 = (.ok (), rw6) ∧
          daq.r 0 rw6 = (.ok v0, rw6) ∧ daq.r 1 rw6 = (.ok v1, rw6) ∧
          daq.r 2 rw6 = (.ok v2, rw6) ∧ daq.r 3 rw6 = (.ok v3, rw6) ∧
          daq.r 4 rw6 = (.ok v4, rw6) ∧ daq.r 5 rw6 = (.ok v5, rw6)) :=
  daqFIFO_layout (zeroRegion 4096 1024) 0 (by decide) (by rw [zeroRegion_length]; decide)

/-- C8. For a `daqFIFO` built by `newDAQFIFO` with its 24 bytes within the
region, `r(i)` returns a value exactly when `0 ≤ i < 6`, and then it is
`pins[i].r()`; `w(i, v)` returns exactly when `0 ≤ i < 6`, and then it is
`pins[i].w(v)`; for every other `i` both panic with index out of range and the
region is as before. -/
theorem daqFIFO_index_contract (rw : rwer) (B : Int) (hB : 0 ≤ B)
    (hlen : B + 24 ≤ rw.raw.length) :
    ∃ daq, newDAQFIFO regs rw B = .ok daq ∧
      ∀ i : Int,
        ((∃ x, daq.r i rw = (.ok x, rw)) ↔ (0 ≤ i ∧ i < 6)) ∧
        (∀ v : Nat, (∃ rw1, daq.w i v rw = (.ok (), rw1)) ↔ (0 ≤ i ∧ i < 6)) ∧
        (∀ h : 0 ≤ i ∧ i < 6,
          daq.r i rw = (daq.pins ⟨i.toNat, by omega⟩).r rw ∧
          ∀ v : Nat, daq.w i v rw = (daq.pins ⟨i.toNat, by omega⟩).w v rw) ∧
        (¬ (0 ≤ i ∧ i < 6) →
          daq.r i rw = (.error .indexOutOfRange, rw) ∧
          ∀ v : Nat, daq.w i v rw = (.error .indexOutOfRange, rw)) := by
  obtain ⟨daq, hdaq, H⟩ := newDAQFIFO_inside rw B hB hlen
  refine ⟨daq, hdaq, ?_⟩
  intro i
  have hout : ¬ (0 ≤ i ∧ i < 6) →
      daq.r i rw = (.error .indexOutOfRange, rw) ∧
      ∀ v : Nat, daq.w i v rw = (.error .indexOutOfRange, rw) := by
    intro hi
    constructor
    · simp only [daqFIFO.r, daqFIFO_pin_outside daq i hi]
    · intro v
      simp only [daqFIFO.w, daqFIFO_pin_outside daq i hi]
  have hin : ∀ h : 0 ≤ i ∧ i < 6,
      daq.r i rw = (daq.pins ⟨i.toNat, by omega⟩).r rw ∧
      ∀ v : Nat, daq.w i v rw = (daq.pins ⟨i.toNat, by omega⟩).w v rw := by
    intro h
    constructor
    · simp only [daqFIFO.r, daqFIFO.pin, dif_pos h]
    · intro v
      simp only [daqFIFO.w, daqFIFO.pin, dif_pos h]
  refine ⟨?_, ?_, hin, hout⟩
  · constructor
    · rintro ⟨x, hx⟩
      by_contra hc
      rw [(hout hc).1] at hx
      simp at hx
    · intro h
      rw [(hin h).1, (H i.toNat (by omega)).1]
      obtain ⟨x, hx⟩ := load32_ok_of_inside rw (B.toNat + 4 * i.toNat) (by omega)
      exact ⟨x, by rw [hx]⟩
  · intro v
    constructor
    · rintro ⟨rw1, hx⟩
      by_contra hc
      rw [(hout hc).2 v] at hx
      simp at hx
    · intro h
      rw [(hin h).2 v, (H i.toNat (by omega)).2]
      obtain ⟨rw1, hs, _⟩ := store32_inside rw (B.toNat + 4 * i.toNat) v (by omega)
      exact ⟨rw1, by rw [hs]⟩

/-- C8 (instance). A FIFO block at base 4 of a 32-byte region. -/
theorem daqFIFO_index_contract_witness :
    ∃ daq, newDAQFIFO regs (zeroRegion 4096 32) 4 = .ok daq ∧
      ∀ i : Int,
        ((∃ x, daq.r i (zeroRegion 4096 32) = (.ok x, zeroRegion 4096 32)) ↔
          (0 ≤ i ∧ i < 6)) ∧
        (∀ v : Nat, (∃ rw1, daq.w i v (zeroRegion 4096 32) = (.ok (), rw1)) ↔
          (0 ≤ i ∧ i < 6)) ∧
        (∀ h : 0 ≤ i ∧ i < 6,
          daq.r i (zeroRegion 4096 32) =
            (daq.pins ⟨i.toNat, by omega⟩).r (zeroRegion 4096 32) ∧
          ∀ v : Nat, daq.w i v (zeroRegion 4096 32) =
            (daq.pins ⟨i.toNat, by omega⟩).w v (zeroRegion 4096 32)) ∧
        (¬ (0 ≤ i ∧ i < 6) →
          daq.r i (zeroRegion 4096 32) = (.error .indexOutOfRange, zeroRegion 4096 32) ∧
          ∀ v : Nat, daq.w i v (zeroRegion 4096 32) =
            (.error .indexOutOfRange, zeroRegion 4096 32)) :=
  daqFIFO_index_contract (zeroRegion 4096 32) 4 (by decide) (by decide)

end eda
